import Mathlib

/-!
Verification development for the coroutine-driven message bus of
`posei_experiments` (source: `src/experiments/core/src/lib.rs`).

The embedding follows the Rust source:

* `Subscription`, `Command`, `MessageBus`, `SendTask`, `PublishTask`, `Task`
  and `TaskRunner` mirror the structures of the same names.
* The two `HashMap`s of `MessageBus` are modelled as association lists in
  insertion order.  Two facts about `std::collections::HashMap` are preserved
  by the model:
  (1) `insert` on a key that is already present updates the value but keeps
      the *old key object* (documented behaviour of `HashMap::insert`;
      decisive for `subscriptions`, which is keyed by `Subscription` with
      equality over `(topic, handler_id)` only);
  (2) a `HashMap` never holds two equal keys, so removing "all entries whose
      key equals k" coincides with `HashMap::remove` on every map the code
      can build; removal is modelled by that filter.
  Iteration order of a `HashMap` is arbitrary but fixed for an unmutated
  map; the association-list order realises one such fixed order.
* A handler coroutine is modelled as the instrumented actor of the
  repository's own property tests (`create_actor_handler`): a coroutine owns
  a handler id and a list of commands; its first resumption records
  `Enter(id)` in the trace, each resumption yields the next command, and the
  resumption after the last command records `Exit(id)` and completes.
* `TaskRunner.tasks` is a stack; the Rust `Vec` pushes and pops at its end,
  the Lean list pushes and pops at its head.
-/

namespace PoseiBus

/-- Trace events emitted by the instrumented handlers of the repository's
property tests: `Enter(id)` on first resumption, `Exit(id)` on completion. -/
inductive TraceEvent : Type where
  | enter (id : String)
  | exit (id : String)
  deriving DecidableEq

/-- Messages are `Rc<dyn Any>` in the source: the bus never inspects them.
They are modelled by an opaque numeric identifier. -/
abbrev Msg := Nat

mutual

/-- Mirrors `enum Command` of the source: the commands a handler coroutine
may yield to the bus. -/
inductive Command : Type where
  | send (topic : String) (msg : Msg)
  | publish (pat : String) (msg : Msg)
  | register (sub : Subscription)
  | deregister (topic : String)
  | subscribe (sub : Subscription)
  | unsubscribe (topic : String) (handler_id : String)

/-- Mirrors `struct Subscription` (fields in source order: `actor_fn`,
`handler_id`, `topic`, `priority`).  `actor_fn` is a factory producing a
fresh coroutine per invocation; here the handler's program is its command
list, so the factory is the list itself and "invoking" it starts a fresh
interpretation of the list (see `freshCoro`).  `priority : Nat` stands for
the source's `u8`; the bus performs no arithmetic on it. -/
inductive Subscription : Type where
  | mk (actor_fn : List Command) (handler_id : String) (topic : String) (priority : Nat)

end

def Subscription.actor_fn : Subscription → List Command
  | .mk f _ _ _ => f

def Subscription.handler_id : Subscription → String
  | .mk _ h _ _ => h

def Subscription.topic : Subscription → String
  | .mk _ _ t _ => t

def Subscription.priority : Subscription → Nat
  | .mk _ _ _ p => p

/-- Mirrors `impl PartialEq for Subscription`: equality compares only
`topic` and `handler_id` (the `Hash` impl hashes exactly the same two
fields). -/
def subKeyEq (a b : Subscription) : Bool :=
  (a.topic == b.topic) && (a.handler_id == b.handler_id)

/-- Mirrors `struct MessageBus`: `endpoints : HashMap<String, Subscription>`
and `subscriptions : HashMap<Subscription, String>` (the value is the
topic stored by `subscribe`). -/
structure MessageBus : Type where
  endpoints : List (String × Subscription)
  subscriptions : List (Subscription × String)

/-- Mirrors `MessageBus::new` / `Default`. -/
def MessageBus.new : MessageBus := ⟨[], []⟩

/-- Model of `HashMap::insert` for `endpoints` (`String` keys): when the key
is present the value is updated in place (the old key object is kept, which
for equal strings is indistinguishable); otherwise the entry is appended. -/
def insertEp (m : List (String × Subscription)) (k : String) (v : Subscription) :
    List (String × Subscription) :=
  if m.any (fun p => p.1 == k) then
    m.map (fun p => if p.1 == k then (p.1, v) else p)
  else
    m ++ [(k, v)]

/-- Model of `HashMap::get` on `endpoints`. -/
def epLookup (m : List (String × Subscription)) (k : String) : Option Subscription :=
  (m.find? (fun p => p.1 == k)).map (fun p => p.2)

/-- Model of `HashMap::contains_key` on `endpoints`. -/
def epContains (m : List (String × Subscription)) (k : String) : Bool :=
  m.any (fun p => p.1 == k)

/-- Model of `HashMap::insert` for `subscriptions` (`Subscription` keys with
`subKeyEq` equality): when an equal key is present only the value is
updated — the *old* `Subscription` (with its `actor_fn` and `priority`)
remains the stored key, exactly as documented for `HashMap::insert`;
otherwise the entry is appended. -/
def insertSub (m : List (Subscription × String)) (k : Subscription) (v : String) :
    List (Subscription × String) :=
  if m.any (fun p => subKeyEq p.1 k) then
    m.map (fun p => if subKeyEq p.1 k then (p.1, v) else p)
  else
    m ++ [(k, v)]

/-- Mirrors `MessageBus::register`: `endpoints.insert(sub.topic, sub)`. -/
def MessageBus.register (bus : MessageBus) (subscription : Subscription) : MessageBus :=
  { bus with endpoints := insertEp bus.endpoints subscription.topic subscription }

/-- Mirrors `MessageBus::deregister`: `endpoints.remove(topic)`.  A
`HashMap` holds at most one entry per key, so removal is the filter keeping
every entry with a different key. -/
def MessageBus.deregister (bus : MessageBus) (topic : String) : MessageBus :=
  { bus with endpoints := bus.endpoints.filter (fun p => !(p.1 == topic)) }

/-- Mirrors `MessageBus::subscribe`: `subscriptions.insert(sub, sub.topic)`. -/
def MessageBus.subscribe (bus : MessageBus) (subscription : Subscription) : MessageBus :=
  { bus with subscriptions := insertSub bus.subscriptions subscription subscription.topic }

/-- Mirrors `MessageBus::remove_subscription`: builds a dummy key with the
given `topic` and `handler_id` (dummy `actor_fn`, `priority` 0) and removes
the entry equal to it, equality being `subKeyEq`. -/
def MessageBus.remove_subscription (bus : MessageBus) (topic : String)
    (handler_id : String) : MessageBus :=
  let key : Subscription := .mk [] handler_id topic 0
  { bus with subscriptions := bus.subscriptions.filter (fun p => !(subKeyEq p.1 key)) }

/-- Character-list version of Rust `str::starts_with` for `occursIn`. -/
def leadsWith : List Char → List Char → Bool
  | [], _ => true
  | _ :: _, [] => false
  | a :: as, b :: bs => (a == b) && leadsWith as bs

/-- Substring containment on character lists: the needle occurs contiguously
in the haystack. -/
def occursIn : List Char → List Char → Bool
  | needle, [] => leadsWith needle []
  | needle, c :: rest => leadsWith needle (c :: rest) || occursIn needle rest

/-- Mirrors Rust `String::contains(pat)`: `pat` occurs as a contiguous
substring of `hay`. -/
def strContains (hay pat : String) : Bool :=
  occursIn pat.data hay.data

/-- The sequence of subscriptions matching a publish pattern, exactly as
enumerated inside `PublishTask::next_task`:
`subscriptions.iter().filter(|(_sub, topic)| topic.contains(&pattern)).map(|(sub, _)| sub)`.
Note the filter tests the stored *value* string (the topic recorded by
`subscribe`) against the pattern. -/
def matchingSubs (bus : MessageBus) (pat : String) : List Subscription :=
  (bus.subscriptions.filter (fun p => strContains p.2 pat)).map (fun p => p.1)

/-- State of one running handler coroutine: the handler id, whether the
`Enter` event has been emitted (the coroutine body has started), and the
commands not yet yielded.  This is the instrumented actor coroutine of the
repository's property tests. -/
structure CoroState : Type where
  id : String
  entered : Bool
  remaining : List Command

/-- Mirrors `CoroutineState<Command, ()>`. -/
inductive CoroRes : Type where
  | yielded (cmd : Command)
  | complete

/-- Mirrors one resumption of the instrumented coroutine: on first
resumption it records `Enter(id)`; it yields the next command if one
remains, else it records `Exit(id)` and completes.  The result is the
coroutine state after the resumption together with the trace events the
resumption emitted. -/
def CoroState.resume (c : CoroState) : CoroRes × CoroState × List TraceEvent :=
  let enterEvs : List TraceEvent := if c.entered then [] else [.enter c.id]
  match c.remaining with
  | cmd :: rest => (.yielded cmd, ⟨c.id, true, rest⟩, enterEvs)
  | [] => (.complete, ⟨c.id, true, []⟩, enterEvs ++ [.exit c.id])

/-- Mirrors invoking `(sub.actor_fn)()`: a fresh, not-yet-entered coroutine
running the handler's program. -/
def freshCoro (sub : Subscription) : CoroState :=
  ⟨sub.handler_id, false, sub.actor_fn⟩

/-- Mirrors `struct SendTask`: the originating pattern/topic string, the
coroutine instance, and the shared message. -/
structure SendTask : Type where
  pat : String
  coro : CoroState
  msg : Msg

/-- Mirrors `struct PublishTask`: pattern, shared message, and the cursor
`idx` counting dispatched subscribers. -/
structure PublishTask : Type where
  pat : String
  msg : Msg
  idx : Nat

/-- Mirrors `PublishTask::new`. -/
def PublishTask.new (pat : String) (msg : Msg) : PublishTask := ⟨pat, msg, 0⟩

/-- Mirrors `PublishTask::next_task`: recompute the matching sequence from
the registry handed in, take its `idx`-th element, and only when one exists
advance the cursor and synthesise a `SendTask` from a fresh coroutine of
that subscription.  The advanced task is returned alongside the `SendTask`
(the Rust method mutates `self.idx` in place). -/
def PublishTask.next_task (t : PublishTask) (bus : MessageBus) :
    Option (PublishTask × SendTask) :=
  match (matchingSubs bus t.pat).get? t.idx with
  | some sub => some ({ t with idx := t.idx + 1 }, ⟨t.pat, freshCoro sub, t.msg⟩)
  | none => none

/-- Mirrors `enum Task`. -/
inductive Task : Type where
  | send (t : SendTask)
  | publish (t : PublishTask)

/-- Mirrors `struct TaskRunner` (task stack plus message bus), extended with
the event trace that the instrumented handlers of the property tests record
through their shared `Rc<RefCell<Vec<TraceEvent>>>`. -/
structure TaskRunner : Type where
  tasks : List Task
  msg_bus : MessageBus
  trace : List TraceEvent

/-- Interpretation of one yielded command, exactly the `match cmd` arms
inside `TaskRunner::step`: `Send` pushes a `SendTask` when an endpoint
exists (else nothing), `Publish` pushes a fresh `PublishTask`, and the four
registry commands apply the corresponding `MessageBus` mutator. -/
def interpret (cmd : Command) (r : TaskRunner) : TaskRunner :=
  match cmd with
  | .send topic msg =>
    match epLookup r.msg_bus.endpoints topic with
    | some sub => { r with tasks := .send ⟨topic, freshCoro sub, msg⟩ :: r.tasks }
    | none => r
  | .publish pat msg => { r with tasks := .publish (PublishTask.new pat msg) :: r.tasks }
  | .register sub => { r with msg_bus := r.msg_bus.register sub }
  | .deregister topic => { r with msg_bus := r.msg_bus.deregister topic }
  | .subscribe sub => { r with msg_bus := r.msg_bus.subscribe sub }
  | .unsubscribe topic handler_id =>
    { r with msg_bus := r.msg_bus.remove_subscription topic handler_id }

/-- Mirrors `TaskRunner::step`.  Top of stack a `SendTask`: resume its
coroutine; on `Yielded(cmd)` the advanced task stays in place and `cmd` is
interpreted (possibly pushing above it); on `Complete` the task is popped.
Top a `PublishTask`: push its `next_task` above it, or pop it when the
cursor is exhausted.  Empty stack: no-op. -/
def TaskRunner.step (r : TaskRunner) : TaskRunner :=
  match r.tasks with
  | .send st :: rest =>
    match st.coro.resume with
    | (.yielded cmd, coro', evs) =>
      interpret cmd { r with tasks := .send { st with coro := coro' } :: rest,
                             trace := r.trace ++ evs }
    | (.complete, _, evs) => { r with tasks := rest, trace := r.trace ++ evs }
  | .publish pt :: rest =>
    match pt.next_task r.msg_bus with
    | some (pt', st) => { r with tasks := .send st :: .publish pt' :: rest }
    | none => { r with tasks := rest }
  | [] => r

/-- Iterates `TaskRunner::step` a given number of times; `TaskRunner::run`
loops `step` until the stack is empty, so a terminating run is a `runSteps`
that reaches an empty stack (further steps are then no-ops). -/
def runSteps : Nat → TaskRunner → TaskRunner
  | 0, r => r
  | n + 1, r => runSteps n r.step

/-- Repeatedly draws `SendTask`s from a `PublishTask` cursor over one fixed,
unmutated registry: one enumeration run of the cursor. -/
def cursorEnum (bus : MessageBus) : Nat → PublishTask → List SendTask
  | 0, _ => []
  | fuel + 1, t =>
    match t.next_task bus with
    | some (t', st) => st :: cursorEnum bus fuel t'
    | none => []

/-- An operation of the register/deregister sequences of claim C7. -/
inductive RegOp : Type where
  | reg (s : Subscription)
  | dereg (topic : String)

/-- Applies one `RegOp` to the bus via the source mutators. -/
def applyRegOp (bus : MessageBus) : RegOp → MessageBus
  | .reg s => bus.register s
  | .dereg t => bus.deregister t

/-- The operation addresses topic `t`. -/
def RegOp.addresses (t : String) : RegOp → Prop
  | .reg s => s.topic = t
  | .dereg u => u = t

/-- The operation is a `register`. -/
def RegOp.isReg : RegOp → Bool
  | .reg _ => true
  | .dereg _ => false

/-! Helper lemmas about the registry maps. -/

/-- A successful `find?` makes `any` true for the same predicate. -/
theorem any_of_find?_eq_some {α : Type} {l : List α} {p : α → Bool} {a : α}
    (h : l.find? p = some a) : l.any p = true :=
  List.any_eq_true.mpr ⟨a, List.mem_of_find?_eq_some h, List.find?_some h⟩

/-- Updating the values of all `subKeyEq`-matching entries leaves the first
matching entry's key in place and rewrites its value. -/
theorem find?_map_update (m : List (Subscription × String)) (k : Subscription)
    (v : String) (q : Subscription × String)
    (h : m.find? (fun p => subKeyEq p.1 k) = some q) :
    ((m.map (fun p => if subKeyEq p.1 k then (p.1, v) else p)).find?
      (fun p => subKeyEq p.1 k)) = some (q.1, v) := by
  induction m with
  | nil => simp at h
  | cons a l ih =>
    by_cases hpa : subKeyEq a.1 k = true
    · have h1 : List.find? (fun p => subKeyEq p.1 k) (a :: l) = some a :=
        List.find?_cons_of_pos _ hpa
      rw [h1] at h
      obtain rfl : a = q := by injection h
      simp only [List.map_cons, if_pos hpa]
      exact List.find?_cons_of_pos _ (show subKeyEq (a.1, v).1 k = true from hpa)
    · have hpa' : subKeyEq a.1 k = false := by
        cases hv : subKeyEq a.1 k
        · rfl
        · exact absurd hv hpa
      have h1 : List.find? (fun p => subKeyEq p.1 k) (a :: l)
          = List.find? (fun p => subKeyEq p.1 k) l :=
        List.find?_cons_of_neg _ (by simp [hpa'])
      rw [h1] at h
      simp only [List.map_cons, if_neg hpa]
      have h2 : List.find? (fun p => subKeyEq p.1 k)
          (a :: l.map (fun p => if subKeyEq p.1 k then (p.1, v) else p))
          = List.find? (fun p => subKeyEq p.1 k)
              (l.map (fun p => if subKeyEq p.1 k then (p.1, v) else p)) :=
        List.find?_cons_of_neg _ (by simp [hpa'])
      rw [h2]
      exact ih h

/-- Inserting under a key that is present keeps the stored key object and
rewrites only its value (the `HashMap::insert` contract). -/
theorem find?_insertSub (m : List (Subscription × String)) (k : Subscription)
    (v : String) (q : Subscription × String)
    (h : m.find? (fun p => subKeyEq p.1 k) = some q) :
    (insertSub m k v).find? (fun p => subKeyEq p.1 k) = some (q.1, v) := by
  unfold insertSub
  rw [if_pos (any_of_find?_eq_some h)]
  exact find?_map_update m k v q h

/-- C1, corrected form. The claim says `subscribe(sub)` on a colliding
`(topic, handler_id)` key stores `sub` itself (newer `actor_fn` supersedes).
In the code `subscriptions` is a `HashMap<Subscription, String>` and
`HashMap::insert` does not update a present key: only the topic *value* is
rewritten, the stored `Subscription` key — with the older `actor_fn` and
`priority` — stays.  This theorem proves that corrected behaviour. -/
theorem subscribe_updates_value_keeps_stored_key (bus : MessageBus)
    (sub old : Subscription) (w : String)
    (h : bus.subscriptions.find? (fun p => subKeyEq p.1 sub) = some (old, w)) :
    (bus.subscribe sub).subscriptions.find? (fun p => subKeyEq p.1 sub)
      = some (old, sub.topic) := by
  exact find?_insertSub bus.subscriptions sub sub.topic (old, w) h

/-- Witness for `subscribe_updates_value_keeps_stored_key` at a concrete
colliding pair of subscriptions. -/
theorem subscribe_updates_value_keeps_stored_key_witness :
    ((MessageBus.new.subscribe (.mk [] "h" "t" 0)).subscriptions.find?
        (fun p => subKeyEq p.1 (.mk [.send "x" 0] "h" "t" 3)) = some (.mk [] "h" "t" 0, "t")) ∧
    (((MessageBus.new.subscribe (.mk [] "h" "t" 0)).subscribe
        (.mk [.send "x" 0] "h" "t" 3)).subscriptions.find?
        (fun p => subKeyEq p.1 (.mk [.send "x" 0] "h" "t" 3)) = some (.mk [] "h" "t" 0, "t")) :=
  ⟨rfl, subscribe_updates_value_keeps_stored_key _ (.mk [.send "x" 0] "h" "t" 3)
    (.mk [] "h" "t" 0) "t" rfl⟩

/-- Counterexample to C1 as stated: after `subscribe` of a newer
subscription whose `(topic, handler_id)` collides with a stored one, the
stored subscription for that key is still the *old* subscription, which
differs from the newer one (different `actor_fn` and `priority`). -/
theorem subscribe_last_writer_wins_cex :
    (((MessageBus.new.subscribe (.mk [] "h" "t" 0)).subscribe
        (.mk [.send "x" 0] "h" "t" 3)).subscriptions = [(.mk [] "h" "t" 0, "t")]) ∧
    Subscription.mk [] "h" "t" 0 ≠ .mk [.send "x" 0] "h" "t" 3 := by
  refine ⟨rfl, fun h => ?_⟩
  injection h with h1 h2 h3 h4
  simp at h1

/-- C2, corrected form. The round trip `register(s)` then
`deregister(s.topic)` restores `endpoints` provided — contrary to the
claim's "no precondition" — the pre-state has no endpoint for `s.topic`. -/
theorem register_deregister_roundtrip_fresh_topic (bus : MessageBus)
    (s : Subscription) (h : epContains bus.endpoints s.topic = false) :
    ((bus.register s).deregister s.topic).endpoints = bus.endpoints := by
  show (insertEp bus.endpoints s.topic s).filter (fun p => !(p.1 == s.topic))
    = bus.endpoints
  simp only [epContains] at h
  unfold insertEp
  rw [if_neg (by simp [h])]
  rw [List.filter_append]
  have h2 : List.filter (fun p => !(p.1 == s.topic)) [(s.topic, s)] = [] := by simp
  rw [h2, List.append_nil]
  refine List.filter_eq_self.mpr (fun p hp => ?_)
  have hc : (p.1 == s.topic) = false := by
    cases hc : (p.1 == s.topic)
    · rfl
    · have h' : bus.endpoints.any (fun p => p.1 == s.topic) = true :=
        List.any_eq_true.mpr ⟨p, hp, hc⟩
      rw [h] at h'
      exact Bool.noConfusion h'
  simp [hc]

/-- Witness for `register_deregister_roundtrip_fresh_topic` on a bus with an
endpoint at a different topic. -/
theorem register_deregister_roundtrip_fresh_topic_witness :
    (epContains (MessageBus.mk [("u", .mk [] "e" "u" 0)] []).endpoints
      (Subscription.topic (.mk [] "h" "t" 0)) = false) ∧
    (((MessageBus.mk [("u", .mk [] "e" "u" 0)] []).register (.mk [] "h" "t" 0)).deregister
        (Subscription.topic (.mk [] "h" "t" 0))).endpoints
      = (MessageBus.mk [("u", .mk [] "e" "u" 0)] []).endpoints :=
  ⟨rfl, register_deregister_roundtrip_fresh_topic _ (.mk [] "h" "t" 0) rfl⟩

/-- Counterexample to C2 as stated: when the pre-state already holds an
endpoint for `s.topic`, registering `s` overwrites it and deregistering then
deletes the entry, so the round trip does not restore `endpoints`. -/
theorem register_deregister_roundtrip_cex :
    (((MessageBus.mk [("t", .mk [] "e" "t" 0)] []).register (.mk [] "h" "t" 0)).deregister
        (Subscription.topic (.mk [] "h" "t" 0))).endpoints
      ≠ (MessageBus.mk [("t", .mk [] "e" "t" 0)] []).endpoints :=
  fun h => absurd (congrArg List.length h) (by decide)

/-- C6, confirmed. Subscription equality (the source's `PartialEq`/`Hash`,
both over `topic` and `handler_id` only) holds iff the `(topic, handler_id)`
pairs agree — `priority` and `actor_fn` play no role — and consequently
`remove_subscription(topic, handler_id)` removes exactly the stored
subscriptions with that key, whatever their `priority` and `actor_fn`. -/
theorem subscription_identity_key_only :
    (∀ a b : Subscription,
      subKeyEq a b = true ↔ (a.topic = b.topic ∧ a.handler_id = b.handler_id)) ∧
    (∀ (bus : MessageBus) (t h : String) (s : Subscription) (v : String),
      (s, v) ∈ (bus.remove_subscription t h).subscriptions ↔
        ((s, v) ∈ bus.subscriptions ∧ ¬(s.topic = t ∧ s.handler_id = h))) := by
  constructor
  · intro a b
    simp [subKeyEq, Bool.and_eq_true, beq_iff_eq]
  · intro bus t h s v
    show (s, v) ∈ bus.subscriptions.filter
      (fun p => !(subKeyEq p.1 (.mk [] h t 0))) ↔ _
    rw [List.mem_filter]
    simp only [subKeyEq, Bool.not_eq_true', Bool.and_eq_false_iff, beq_eq_false_iff_ne,
      ne_eq, Subscription.topic, Subscription.handler_id, not_and]
    tauto

/-! Helper lemmas for the endpoint presence invariant (C7). -/

/-- Inserting an endpoint makes its key present. -/
theorem epContains_insertEp_self (m : List (String × Subscription)) (k : String)
    (v : Subscription) : epContains (insertEp m k v) k = true := by
  unfold epContains insertEp
  by_cases hc : m.any (fun p => p.1 == k) = true
  · rw [if_pos hc, List.any_map]
    have : ((fun p => p.1 == k) ∘ fun p : String × Subscription =>
        if p.1 == k then (p.1, v) else p) = fun p => p.1 == k := by
      funext p
      by_cases hp : p.1 = k
      · simp [hp]
      · simp [hp]
    rw [this]
    exact hc
  · rw [if_neg hc, List.any_append]
    simp

/-- Removing an endpoint key makes it absent. -/
theorem epContains_filter_out_self (m : List (String × Subscription)) (k : String) :
    epContains (m.filter (fun p => !(p.1 == k))) k = false := by
  unfold epContains
  cases hc : (m.filter (fun p => !(p.1 == k))).any (fun p => p.1 == k)
  · rfl
  · obtain ⟨p, hp, hk⟩ := List.any_eq_true.mp hc
    rw [List.mem_filter] at hp
    rw [hk] at hp
    exact Bool.noConfusion hp.2

/-- C7, confirmed. For every nonempty sequence of `register`/`deregister`
operations all addressing topic `t`, applied to any starting bus, the
`endpoints` map contains an entry for `t` after the sequence iff the last
operation of the sequence is a `register`.  The sequence is written
`ops ++ [op]` so that its last element is explicit. -/
theorem endpoints_last_register_wins (ops : List RegOp) (op : RegOp)
    (bus : MessageBus) (t : String)
    (haddr : ∀ o ∈ ops ++ [op], o.addresses t) :
    epContains (((ops ++ [op]).foldl applyRegOp bus).endpoints) t = op.isReg := by
  rw [List.foldl_append]
  simp only [List.foldl_cons, List.foldl_nil]
  have hop : op.addresses t := haddr op (List.mem_append_right _ (List.mem_singleton.mpr rfl))
  cases op with
  | reg s =>
    have hst : s.topic = t := hop
    show epContains ((((ops.foldl applyRegOp bus)).register s).endpoints) t = true
    show epContains (insertEp (ops.foldl applyRegOp bus).endpoints s.topic s) t = true
    rw [hst]
    exact epContains_insertEp_self _ t s
  | dereg u =>
    have hut : u = t := hop
    show epContains (((ops.foldl applyRegOp bus).deregister u).endpoints) t = false
    show epContains ((ops.foldl applyRegOp bus).endpoints.filter
      (fun p => !(p.1 == u))) t = false
    rw [hut]
    exact epContains_filter_out_self _ t

/-- Witness for `endpoints_last_register_wins`: register then deregister on
topic `"t"` starting from the empty bus leaves no endpoint for `"t"`. -/
theorem endpoints_last_register_wins_witness :
    (∀ o ∈ [RegOp.reg (.mk [] "h" "t" 0)] ++ [RegOp.dereg "t"], o.addresses "t") ∧
    epContains ((([RegOp.reg (.mk [] "h" "t" 0)] ++ [RegOp.dereg "t"]).foldl
      applyRegOp MessageBus.new).endpoints) "t" = (RegOp.dereg "t").isReg := by
  have haddr : ∀ o ∈ [RegOp.reg (.mk [] "h" "t" 0)] ++ [RegOp.dereg "t"],
      o.addresses "t" := by
    intro o ho
    rcases List.mem_cons.mp ho with h | h
    · subst h; rfl
    · rcases List.mem_cons.mp h with h2 | h2
      · subst h2; rfl
      · exact absurd h2 (List.not_mem_nil o)
  exact ⟨haddr, endpoints_last_register_wins _ _ MessageBus.new "t" haddr⟩

/-! The subscriptions well-formedness invariant: every stored value is its
key's topic.  `subscribe` stores `sub.topic` as the value, and a colliding
insert rewrites the value to the new topic while `subKeyEq` forces the old
key's topic to equal it, so every bus reachable through the five mutators
satisfies the invariant. -/

/-- Every entry of `subscriptions` stores its key's topic as its value. -/
def SubsWF (bus : MessageBus) : Prop :=
  ∀ p ∈ bus.subscriptions, p.2 = p.1.topic

theorem subsWF_new : SubsWF MessageBus.new := by
  intro p hp
  exact absurd hp (List.not_mem_nil p)

theorem subsWF_subscribe (bus : MessageBus) (sub : Subscription) (h : SubsWF bus) :
    SubsWF (bus.subscribe sub) := by
  intro p hp
  replace hp : p ∈ insertSub bus.subscriptions sub sub.topic := hp
  unfold insertSub at hp
  by_cases hc : bus.subscriptions.any (fun p => subKeyEq p.1 sub) = true
  · rw [if_pos hc] at hp
    obtain ⟨q, hq, hfq⟩ := List.mem_map.mp hp
    by_cases hk : subKeyEq q.1 sub = true
    · rw [if_pos hk] at hfq
      subst hfq
      have : q.1.topic = sub.topic := by
        have := (Bool.and_eq_true _ _).mp hk
        exact beq_iff_eq.mp this.1
      simpa using this.symm
    · rw [if_neg hk] at hfq
      subst hfq
      exact h q hq
  · rw [if_neg hc] at hp
    rcases List.mem_append.mp hp with hold | hnew
    · exact h p hold
    · rw [List.mem_singleton.mp hnew]

theorem subsWF_register (bus : MessageBus) (sub : Subscription) (h : SubsWF bus) :
    SubsWF (bus.register sub) := h

theorem subsWF_deregister (bus : MessageBus) (t : String) (h : SubsWF bus) :
    SubsWF (bus.deregister t) := h

theorem subsWF_remove_subscription (bus : MessageBus) (t hid : String)
    (h : SubsWF bus) : SubsWF (bus.remove_subscription t hid) := by
  intro p hp
  replace hp : p ∈ bus.subscriptions.filter
      (fun p => !(subKeyEq p.1 (.mk [] hid t 0))) := hp
  exact h p (List.mem_filter.mp hp).1

/-- C4, confirmed. On every well-formed registry (the invariant `SubsWF`
holds on every bus the mutators can build), a subscription is in the
sequence a `PublishTask` delivers to — the `matchingSubs` enumeration that
`next_task` draws from — iff it is stored in `subscriptions` and the
pattern occurs as a contiguous substring of its topic. -/
theorem publish_matching_is_substring (bus : MessageBus) (pat : String)
    (s : Subscription) (hwf : SubsWF bus) :
    s ∈ matchingSubs bus pat ↔
      ((∃ v, (s, v) ∈ bus.subscriptions) ∧ strContains s.topic pat = true) := by
  unfold matchingSubs
  rw [List.mem_map]
  constructor
  · rintro ⟨q, hq, rfl⟩
    rw [List.mem_filter] at hq
    refine ⟨⟨q.2, by simpa using hq.1⟩, ?_⟩
    have hv : q.2 = q.1.topic := hwf q hq.1
    rw [← hv]
    exact hq.2
  · rintro ⟨⟨v, hm⟩, hc⟩
    refine ⟨(s, v), List.mem_filter.mpr ⟨hm, ?_⟩, rfl⟩
    have hv : v = s.topic := hwf (s, v) hm
    rw [hv]
    exact hc

/-- Witness for `publish_matching_is_substring` on a concrete registry with
one matching and one non-matching subscription. -/
theorem publish_matching_is_substring_witness :
    SubsWF ((MessageBus.new.subscribe (.mk [] "h1" "alpha" 0)).subscribe
      (.mk [] "h2" "beta" 0)) ∧
    ((.mk [] "h1" "alpha" 0 : Subscription) ∈
        matchingSubs ((MessageBus.new.subscribe (.mk [] "h1" "alpha" 0)).subscribe
          (.mk [] "h2" "beta" 0)) "lph" ↔
      ((∃ v, ((.mk [] "h1" "alpha" 0 : Subscription), v) ∈
          ((MessageBus.new.subscribe (.mk [] "h1" "alpha" 0)).subscribe
            (.mk [] "h2" "beta" 0)).subscriptions) ∧
        strContains (Subscription.topic (.mk [] "h1" "alpha" 0)) "lph" = true)) := by
  have hwf : SubsWF ((MessageBus.new.subscribe (.mk [] "h1" "alpha" 0)).subscribe
      (.mk [] "h2" "beta" 0)) :=
    subsWF_subscribe _ _ (subsWF_subscribe _ _ subsWF_new)
  exact ⟨hwf, publish_matching_is_substring _ "lph" _ hwf⟩

/-! Helper lemma for C9: one cursor run over a fixed registry is exactly the
matching sequence, shifted by the starting index. -/

/-- Running a cursor with enough fuel from index `i` enumerates the
`matchingSubs` sequence from position `i`, one fresh `SendTask` each. -/
theorem cursorEnum_eq_drop (bus : MessageBus) (pat : String) (m : Msg) :
    ∀ (fuel i : Nat),
      cursorEnum bus fuel ⟨pat, m, i⟩ =
        (((matchingSubs bus pat).drop i).take fuel).map
          (fun sub => ⟨pat, freshCoro sub, m⟩) := by
  intro fuel
  induction fuel with
  | zero => intro i; simp [cursorEnum]
  | succ n ih =>
    intro i
    show (match PublishTask.next_task ⟨pat, m, i⟩ bus with
      | some (t', st) => st :: cursorEnum bus n t'
      | none => []) = _
    unfold PublishTask.next_task
    cases hg : (matchingSubs bus pat)[i]? with
    | some sub =>
      have hi : i < (matchingSubs bus pat).length :=
        (List.getElem?_eq_some_iff.mp hg).choose
      have hdrop : (matchingSubs bus pat).drop i
          = sub :: (matchingSubs bus pat).drop (i + 1) := by
        rw [List.drop_eq_getElem_cons hi]
        congr 1
        exact List.getElem_eq_iff.mpr hg
      simp only [hdrop, List.take_succ_cons, List.map_cons]
      have hg' : List.get? (matchingSubs bus pat) i = some sub := by
        rw [List.get?_eq_getElem?]
        exact hg
      rw [show (matchingSubs bus ((⟨pat, m, i⟩ : PublishTask).pat)).get?
          (⟨pat, m, i⟩ : PublishTask).idx = some sub from hg']
      simp only
      exact congrArg (List.cons _) (ih (i + 1))
    | none =>
      have hlen : (matchingSubs bus pat).length ≤ i :=
        List.getElem?_eq_none_iff.mp hg
      have hdrop : (matchingSubs bus pat).drop i = [] :=
        List.drop_eq_nil_of_le hlen
      have hg' : List.get? (matchingSubs bus pat) i = none := by
        rw [List.get?_eq_getElem?]
        exact hg
      rw [show (matchingSubs bus ((⟨pat, m, i⟩ : PublishTask).pat)).get?
          (⟨pat, m, i⟩ : PublishTask).idx = none from hg']
      simp [hdrop]

/-- C9, confirmed. Over one fixed, unmutated registry state, any two cursor
runs of a `PublishTask` for the same pattern (any sufficient fuels) make the
same deliveries in the same order, namely one fresh `SendTask` per element
of `matchingSubs bus pat` in sequence: the enumeration order is a function
of the registry state and the pattern alone. -/
theorem cursor_enumeration_deterministic (bus : MessageBus) (pat : String)
    (m : Msg) (f1 f2 : Nat) (h1 : (matchingSubs bus pat).length ≤ f1)
    (h2 : (matchingSubs bus pat).length ≤ f2) :
    cursorEnum bus f1 ⟨pat, m, 0⟩ = cursorEnum bus f2 ⟨pat, m, 0⟩ ∧
    cursorEnum bus f1 ⟨pat, m, 0⟩ =
      (matchingSubs bus pat).map (fun sub => ⟨pat, freshCoro sub, m⟩) := by
  have he : ∀ f, (matchingSubs bus pat).length ≤ f →
      cursorEnum bus f ⟨pat, m, 0⟩ =
        (matchingSubs bus pat).map (fun sub => ⟨pat, freshCoro sub, m⟩) := by
    intro f hf
    rw [cursorEnum_eq_drop bus pat m f 0]
    rw [List.drop_zero, List.take_of_length_le hf]
  rw [he f1 h1, he f2 h2]
  exact ⟨rfl, rfl⟩

/-- Witness for `cursor_enumeration_deterministic` on a registry holding two
matching subscriptions, with fuels 2 and 5. -/
theorem cursor_enumeration_deterministic_witness :
    ((matchingSubs ((MessageBus.new.subscribe (.mk [] "h1" "t" 0)).subscribe
        (.mk [] "h2" "t" 0)) "t").length ≤ 2) ∧
    cursorEnum ((MessageBus.new.subscribe (.mk [] "h1" "t" 0)).subscribe
        (.mk [] "h2" "t" 0)) 2 ⟨"t", 0, 0⟩ =
      cursorEnum ((MessageBus.new.subscribe (.mk [] "h1" "t" 0)).subscribe
        (.mk [] "h2" "t" 0)) 5 ⟨"t", 0, 0⟩ :=
  ⟨by decide,
    (cursor_enumeration_deterministic _ "t" 0 2 5 (by decide) (by decide)).1⟩

/-- C10, confirmed. `next_task` recomputes the matching sequence from the
registry passed to it on each call and returns its `idx`-th element,
advancing the cursor only in that case (first conjunct); the cursor records
only a count, so a registry mutation between two calls of one in-flight
`PublishTask` can skip a not-yet-delivered matching subscriber: concretely,
after delivering `"h1"` of two matching subscriptions and then removing
`"h1"`, the next call returns `none` although the never-delivered `"h2"`
subscription still matches (remaining conjuncts). -/
theorem next_task_cursor_skips_after_mutation :
    (∀ (t : PublishTask) (bus : MessageBus) (t' : PublishTask) (st : SendTask),
      t.next_task bus = some (t', st) →
        t'.idx = t.idx + 1 ∧
        ∃ sub, (matchingSubs bus t.pat).get? t.idx = some sub ∧
          st = ⟨t.pat, freshCoro sub, t.msg⟩) ∧
    ((PublishTask.new "t" 0).next_task
        ((MessageBus.new.subscribe (.mk [] "h1" "t" 0)).subscribe (.mk [] "h2" "t" 0))
      = some (⟨"t", 0, 1⟩, ⟨"t", freshCoro (.mk [] "h1" "t" 0), 0⟩)) ∧
    ((⟨"t", 0, 1⟩ : PublishTask).next_task
        (((MessageBus.new.subscribe (.mk [] "h1" "t" 0)).subscribe
          (.mk [] "h2" "t" 0)).remove_subscription "t" "h1") = none) ∧
    ((.mk [] "h2" "t" 0 : Subscription) ∈ matchingSubs
        (((MessageBus.new.subscribe (.mk [] "h1" "t" 0)).subscribe
          (.mk [] "h2" "t" 0)).remove_subscription "t" "h1") "t") ∧
    (freshCoro (.mk [] "h1" "t" 0)).id ≠ Subscription.handler_id (.mk [] "h2" "t" 0) := by
  refine ⟨?_, rfl, rfl, ?_, by decide⟩
  · intro t bus t' st h
    unfold PublishTask.next_task at h
    cases hg : List.get? (matchingSubs bus t.pat) t.idx with
    | some sub =>
      rw [hg] at h
      refine ⟨?_, sub, rfl, ?_⟩
      · injection h with h1
        injection h1 with h1 h2
        rw [← h1]
      · injection h with h1
        injection h1 with h1 h2
        rw [← h2]
    | none =>
      rw [hg] at h
      exact Option.noConfusion h
  · rw [show matchingSubs
        (((MessageBus.new.subscribe (.mk [] "h1" "t" 0)).subscribe
          (.mk [] "h2" "t" 0)).remove_subscription "t" "h1") "t"
        = [.mk [] "h2" "t" 0] from rfl]
    exact List.mem_singleton.mpr rfl

/-- Witness for the universally quantified conjunct of
`next_task_cursor_skips_after_mutation`, at the concrete first delivery. -/
theorem next_task_cursor_skips_after_mutation_witness :
    ((PublishTask.new "t" 0).next_task
        ((MessageBus.new.subscribe (.mk [] "h1" "t" 0)).subscribe (.mk [] "h2" "t" 0))
      = some (⟨"t", 0, 1⟩, ⟨"t", freshCoro (.mk [] "h1" "t" 0), 0⟩)) ∧
    (⟨"t", 0, 1⟩ : PublishTask).idx = (PublishTask.new "t" 0).idx + 1 :=
  ⟨rfl, (next_task_cursor_skips_after_mutation.1 (PublishTask.new "t" 0)
    ((MessageBus.new.subscribe (.mk [] "h1" "t" 0)).subscribe (.mk [] "h2" "t" 0))
    ⟨"t", 0, 1⟩ ⟨"t", freshCoro (.mk [] "h1" "t" 0), 0⟩ rfl).1⟩

/-! Characterisation of `interpret` and `TaskRunner.step`, case by case. -/

/-- The tasks a command's interpretation pushes (above the current stack):
`Send` pushes one `SendTask` when an endpoint exists, `Publish` pushes one
`PublishTask`, all other commands push nothing. -/
def pushedOf (cmd : Command) (bus : MessageBus) : List Task :=
  match cmd with
  | .send topic msg =>
    match epLookup bus.endpoints topic with
    | some sub => [.send ⟨topic, freshCoro sub, msg⟩]
    | none => []
  | .publish pat msg => [.publish (PublishTask.new pat msg)]
  | _ => []

/-- The bus after a command's interpretation: the four registry commands
apply their mutator, `Send` and `Publish` leave the bus unchanged. -/
def busAfter (cmd : Command) (bus : MessageBus) : MessageBus :=
  match cmd with
  | .send _ _ => bus
  | .publish _ _ => bus
  | .register sub => bus.register sub
  | .deregister topic => bus.deregister topic
  | .subscribe sub => bus.subscribe sub
  | .unsubscribe topic handler_id => bus.remove_subscription topic handler_id

/-- The command is one of `Register`, `Deregister`, `Subscribe`,
`Unsubscribe`. -/
def Command.isRegistryCmd : Command → Bool
  | .register _ => true
  | .deregister _ => true
  | .subscribe _ => true
  | .unsubscribe _ _ => true
  | _ => false

theorem interpret_tasks (cmd : Command) (r : TaskRunner) :
    (interpret cmd r).tasks = pushedOf cmd r.msg_bus ++ r.tasks := by
  cases cmd with
  | send topic msg =>
    show (match epLookup r.msg_bus.endpoints topic with
      | some sub => { r with tasks := .send ⟨topic, freshCoro sub, msg⟩ :: r.tasks }
      | none => r).tasks = _
    cases h : epLookup r.msg_bus.endpoints topic with
    | some sub => simp [pushedOf, h]
    | none => simp [pushedOf, h]
  | publish pat msg => rfl
  | register sub => simp [interpret, pushedOf]
  | deregister topic => simp [interpret, pushedOf]
  | subscribe sub => simp [interpret, pushedOf]
  | unsubscribe topic handler_id => simp [interpret, pushedOf]

theorem interpret_msg_bus (cmd : Command) (r : TaskRunner) :
    (interpret cmd r).msg_bus = busAfter cmd r.msg_bus := by
  cases cmd with
  | send topic msg =>
    show (match epLookup r.msg_bus.endpoints topic with
      | some sub => { r with tasks := .send ⟨topic, freshCoro sub, msg⟩ :: r.tasks }
      | none => r).msg_bus = _
    cases h : epLookup r.msg_bus.endpoints topic with
    | some sub => simp [busAfter]
    | none => simp [busAfter]
  | publish pat msg => rfl
  | register sub => rfl
  | deregister topic => rfl
  | subscribe sub => rfl
  | unsubscribe topic handler_id => rfl

theorem interpret_trace (cmd : Command) (r : TaskRunner) :
    (interpret cmd r).trace = r.trace := by
  cases cmd with
  | send topic msg =>
    show (match epLookup r.msg_bus.endpoints topic with
      | some sub => { r with tasks := .send ⟨topic, freshCoro sub, msg⟩ :: r.tasks }
      | none => r).trace = _
    cases h : epLookup r.msg_bus.endpoints topic with
    | some sub => rfl
    | none => rfl
  | publish pat msg => rfl
  | register sub => rfl
  | deregister topic => rfl
  | subscribe sub => rfl
  | unsubscribe topic handler_id => rfl

/-- One step on a stack whose top `SendTask` yields a command: the advanced
task stays at its position, the command's pushes land above it, the bus
changes by the command's mutator, and the trace grows by the resumption's
events. -/
theorem step_send_yield (r : TaskRunner) (st : SendTask) (rest : List Task)
    (cmd : Command) (coro' : CoroState) (evs : List TraceEvent)
    (htop : r.tasks = .send st :: rest)
    (hres : st.coro.resume = (.yielded cmd, coro', evs)) :
    r.step.tasks = pushedOf cmd r.msg_bus ++ .send { st with coro := coro' } :: rest ∧
    r.step.msg_bus = busAfter cmd r.msg_bus ∧
    r.step.trace = r.trace ++ evs := by
  obtain ⟨tasks, bus, trace⟩ := r
  simp only at htop
  subst htop
  show (TaskRunner.step ⟨.send st :: rest, bus, trace⟩).tasks = _ ∧ _
  unfold TaskRunner.step
  simp only [hres]
  refine ⟨?_, ?_, ?_⟩
  · rw [interpret_tasks]
  · rw [interpret_msg_bus]
  · rw [interpret_trace]

/-- One step on a stack whose top `SendTask` completes: exactly that task is
popped; the bus is untouched and the trace grows by the resumption's
events. -/
theorem step_send_complete (r : TaskRunner) (st : SendTask) (rest : List Task)
    (c2 : CoroState) (evs : List TraceEvent)
    (htop : r.tasks = .send st :: rest)
    (hres : st.coro.resume = (.complete, c2, evs)) :
    r.step.tasks = rest ∧ r.step.msg_bus = r.msg_bus ∧
    r.step.trace = r.trace ++ evs := by
  obtain ⟨tasks, bus, trace⟩ := r
  simp only at htop
  subst htop
  unfold TaskRunner.step
  simp only [hres]
  refine ⟨?_, ?_, ?_⟩ <;> simp

/-- One step on a stack whose top `PublishTask` still has a matching
subscriber: the synthesised `SendTask` is pushed above the advanced cursor;
bus and trace are untouched. -/
theorem step_publish_some (r : TaskRunner) (pt : PublishTask) (rest : List Task)
    (pt' : PublishTask) (st : SendTask)
    (htop : r.tasks = .publish pt :: rest)
    (hnext : pt.next_task r.msg_bus = some (pt', st)) :
    r.step.tasks = .send st :: .publish pt' :: rest ∧
    r.step.msg_bus = r.msg_bus ∧ r.step.trace = r.trace := by
  obtain ⟨tasks, bus, trace⟩ := r
  simp only at htop hnext
  subst htop
  unfold TaskRunner.step
  simp only [hnext]
  refine ⟨?_, ?_, ?_⟩ <;> simp

/-- One step on a stack whose top `PublishTask` has an exhausted cursor:
the task is popped; bus and trace are untouched. -/
theorem step_publish_none (r : TaskRunner) (pt : PublishTask) (rest : List Task)
    (htop : r.tasks = .publish pt :: rest)
    (hnext : pt.next_task r.msg_bus = none) :
    r.step.tasks = rest ∧ r.step.msg_bus = r.msg_bus ∧ r.step.trace = r.trace := by
  obtain ⟨tasks, bus, trace⟩ := r
  simp only at htop hnext
  subst htop
  unfold TaskRunner.step
  simp only [hnext]
  refine ⟨?_, ?_, ?_⟩ <;> simp

/-- C5, confirmed. When the top task's coroutine yields `Send` to a topic
with no registered endpoint, the step pushes no task and leaves the whole
registry (`endpoints` and `subscriptions` alike) unchanged: the command is
silently dropped, the only state change being the advanced coroutine (and
its resumption's trace events). -/
theorem send_without_endpoint_silently_dropped (r : TaskRunner) (st : SendTask)
    (rest : List Task) (topic : String) (m : Msg) (coro' : CoroState)
    (evs : List TraceEvent)
    (htop : r.tasks = .send st :: rest)
    (hres : st.coro.resume = (.yielded (.send topic m), coro', evs))
    (hep : epLookup r.msg_bus.endpoints topic = none) :
    r.step.tasks = .send { st with coro := coro' } :: rest ∧
    r.step.msg_bus = r.msg_bus ∧
    r.step.trace = r.trace ++ evs := by
  obtain ⟨h1, h2, h3⟩ := step_send_yield r st rest (.send topic m) coro' evs htop hres
  refine ⟨?_, ?_, h3⟩
  · rw [h1]
    simp only [pushedOf]
    rw [hep]
    simp
  · rw [h2]
    rfl

/-- Witness for `send_without_endpoint_silently_dropped`: a coroutine sends
to topic `"nope"` on an empty registry. -/
theorem send_without_endpoint_silently_dropped_witness :
    (CoroState.resume ⟨"A", true, [.send "nope" 0]⟩
      = (.yielded (.send "nope" 0), ⟨"A", true, []⟩, [])) ∧
    (TaskRunner.step ⟨[.send ⟨"ta", ⟨"A", true, [.send "nope" 0]⟩, 0⟩],
        MessageBus.new, []⟩).tasks
      = [.send ⟨"ta", ⟨"A", true, []⟩, 0⟩] ∧
    (TaskRunner.step ⟨[.send ⟨"ta", ⟨"A", true, [.send "nope" 0]⟩, 0⟩],
        MessageBus.new, []⟩).msg_bus = MessageBus.new :=
  ⟨rfl,
    (send_without_endpoint_silently_dropped
      ⟨[.send ⟨"ta", ⟨"A", true, [.send "nope" 0]⟩, 0⟩], MessageBus.new, []⟩
      ⟨"ta", ⟨"A", true, [.send "nope" 0]⟩, 0⟩ [] "nope" 0 ⟨"A", true, []⟩ []
      rfl rfl rfl).1,
    (send_without_endpoint_silently_dropped
      ⟨[.send ⟨"ta", ⟨"A", true, [.send "nope" 0]⟩, 0⟩], MessageBus.new, []⟩
      ⟨"ta", ⟨"A", true, [.send "nope" 0]⟩, 0⟩ [] "nope" 0 ⟨"A", true, []⟩ []
      rfl rfl rfl).2.1⟩

/-- C8, confirmed. First conjunct: on `Yielded(cmd)` the advanced `SendTask`
stays on the stack at its position, below exactly the tasks the command
pushes.  Second: the `SendTask` is popped in precisely the step whose
resumption returns `Complete`.  Third: interpreting any of the four
registry commands pushes nothing and touches neither the task stack nor the
trace — only the registry. -/
theorem send_task_frame_and_registry_commands :
    (∀ (r : TaskRunner) (st : SendTask) (rest : List Task) (cmd : Command)
      (coro' : CoroState) (evs : List TraceEvent),
      r.tasks = .send st :: rest →
      st.coro.resume = (.yielded cmd, coro', evs) →
      r.step.tasks = pushedOf cmd r.msg_bus ++ .send { st with coro := coro' } :: rest) ∧
    (∀ (r : TaskRunner) (st : SendTask) (rest : List Task)
      (c2 : CoroState) (evs : List TraceEvent),
      r.tasks = .send st :: rest →
      st.coro.resume = (.complete, c2, evs) →
      r.step.tasks = rest) ∧
    (∀ (cmd : Command) (r : TaskRunner), cmd.isRegistryCmd = true →
      pushedOf cmd r.msg_bus = [] ∧ (interpret cmd r).tasks = r.tasks ∧
        (interpret cmd r).trace = r.trace) := by
  refine ⟨?_, ?_, ?_⟩
  · intro r st rest cmd coro' evs htop hres
    exact (step_send_yield r st rest cmd coro' evs htop hres).1
  · intro r st rest c2 evs htop hres
    exact (step_send_complete r st rest c2 evs htop hres).1
  · intro cmd r hreg
    have hpush : pushedOf cmd r.msg_bus = [] := by
      cases cmd with
      | send topic msg => exact Bool.noConfusion hreg
      | publish pat msg => exact Bool.noConfusion hreg
      | register sub => rfl
      | deregister topic => rfl
      | subscribe sub => rfl
      | unsubscribe topic handler_id => rfl
    refine ⟨hpush, ?_, interpret_trace cmd r⟩
    rw [interpret_tasks, hpush]
    rfl

/-- Witness for `send_task_frame_and_registry_commands`: a coroutine yields
`Subscribe`; the step leaves the advanced `SendTask` alone on the stack. -/
theorem send_task_frame_and_registry_commands_witness :
    (CoroState.resume ⟨"A", true, [.subscribe (.mk [] "h" "t" 0)]⟩
      = (.yielded (.subscribe (.mk [] "h" "t" 0)), ⟨"A", true, []⟩, [])) ∧
    (Command.isRegistryCmd (.subscribe (.mk [] "h" "t" 0)) = true) ∧
    (TaskRunner.step ⟨[.send ⟨"ta", ⟨"A", true, [.subscribe (.mk [] "h" "t" 0)]⟩, 0⟩],
        MessageBus.new, []⟩).tasks
      = pushedOf (.subscribe (.mk [] "h" "t" 0)) MessageBus.new ++
          [.send ⟨"ta", ⟨"A", true, []⟩, 0⟩] ∧
    pushedOf (.subscribe (.mk [] "h" "t" 0)) MessageBus.new = [] :=
  ⟨rfl, rfl,
    send_task_frame_and_registry_commands.1
      ⟨[.send ⟨"ta", ⟨"A", true, [.subscribe (.mk [] "h" "t" 0)]⟩, 0⟩],
        MessageBus.new, []⟩
      ⟨"ta", ⟨"A", true, [.subscribe (.mk [] "h" "t" 0)]⟩, 0⟩ [] _ _ _ rfl rfl,
    (send_task_frame_and_registry_commands.2.2 (.subscribe (.mk [] "h" "t" 0))
      ⟨[], MessageBus.new, []⟩ rfl).1⟩

/-! Run-composition, trace monotonicity, and the depth-first subtree lemmas. -/

theorem runSteps_add (a b : Nat) (r : TaskRunner) :
    runSteps (a + b) r = runSteps b (runSteps a r) := by
  induction a generalizing r with
  | zero => rw [Nat.zero_add]; rfl
  | succ a ih =>
    rw [Nat.succ_add]
    show runSteps (a + b) r.step = _
    exact ih r.step

/-- Every step only appends to the trace. -/
theorem step_trace_extends (r : TaskRunner) : ∃ d, r.step.trace = r.trace ++ d := by
  cases htop : r.tasks with
  | nil =>
    obtain ⟨tasks, bus, trace⟩ := r
    simp only at htop
    subst htop
    exact ⟨[], by simp [TaskRunner.step]⟩
  | cons t rest =>
    cases t with
    | send st =>
      rcases hres : st.coro.resume with ⟨res, c2, evs⟩
      cases res with
      | yielded cmd =>
        exact ⟨evs, (step_send_yield r st rest cmd c2 evs htop hres).2.2⟩
      | complete =>
        exact ⟨evs, (step_send_complete r st rest c2 evs htop hres).2.2⟩
    | publish pt =>
      rcases hnext : pt.next_task r.msg_bus with _ | ⟨pt', st⟩
      · exact ⟨[], by rw [(step_publish_none r pt rest htop hnext).2.2]; simp⟩
      · exact ⟨[], by rw [(step_publish_some r pt rest pt' st htop hnext).2.2]; simp⟩

/-- Any number of steps only appends to the trace. -/
theorem runSteps_trace_extends (n : Nat) (r : TaskRunner) :
    ∃ d, (runSteps n r).trace = r.trace ++ d := by
  induction n generalizing r with
  | zero => exact ⟨[], by simp [runSteps]⟩
  | succ n ih =>
    obtain ⟨d1, h1⟩ := step_trace_extends r
    obtain ⟨d2, h2⟩ := ih r.step
    refine ⟨d1 ++ d2, ?_⟩
    show (runSteps n r.step).trace = _
    rw [h2, h1, List.append_assoc]

/-- A command pushes either nothing or exactly one task. -/
theorem pushedOf_cases (cmd : Command) (bus : MessageBus) :
    pushedOf cmd bus = [] ∨ ∃ t, pushedOf cmd bus = [t] := by
  cases cmd with
  | send topic msg =>
    simp only [pushedOf]
    cases epLookup bus.endpoints topic with
    | some sub => exact Or.inr ⟨_, rfl⟩
    | none => exact Or.inl rfl
  | publish pat msg => exact Or.inr ⟨_, rfl⟩
  | register sub => exact Or.inl rfl
  | deregister topic => exact Or.inl rfl
  | subscribe sub => exact Or.inl rfl
  | unsubscribe topic handler_id => exact Or.inl rfl

/-- Depth-first subtree lemma, generic form: in a terminating run, the task
on top of the stack — together with everything it transitively spawns — is
run to completion, reaching exactly the stack below it, before that lower
stack is ever touched. -/
theorem subtree_pop_generic :
    ∀ (N : Nat) (r : TaskRunner) (t : Task) (rest : List Task),
      r.tasks = t :: rest → (runSteps N r).tasks = [] →
      ∃ k, 1 ≤ k ∧ k ≤ N ∧ (runSteps k r).tasks = rest := by
  intro N
  induction N using Nat.strong_induction_on with
  | _ N ih =>
    intro r t rest htop hterm
    cases N with
    | zero =>
      rw [show runSteps 0 r = r from rfl, htop] at hterm
      exact absurd hterm (by simp)
    | succ N0 =>
      have hterm' : (runSteps N0 r.step).tasks = [] := hterm
      cases t with
      | send st =>
        rcases hres : st.coro.resume with ⟨res, c2, evs⟩
        cases res with
        | complete =>
          exact ⟨1, le_refl 1, by omega,
            (step_send_complete r st rest c2 evs htop hres).1⟩
        | yielded cmd =>
          obtain ⟨h1, -, -⟩ := step_send_yield r st rest cmd c2 evs htop hres
          rcases pushedOf_cases cmd r.msg_bus with hp | ⟨t1, hp⟩
          · rw [hp, List.nil_append] at h1
            obtain ⟨k, hk1, hk2, hk3⟩ := ih N0 (by omega) r.step _ rest h1 hterm'
            exact ⟨k + 1, by omega, by omega, hk3⟩
          · rw [hp, List.singleton_append] at h1
            obtain ⟨k1, hk11, hk12, hk13⟩ := ih N0 (by omega) r.step t1 _ h1 hterm'
            have hterm2 : (runSteps (N0 - k1) (runSteps k1 r.step)).tasks = [] := by
              rw [← runSteps_add k1 (N0 - k1) r.step,
                show k1 + (N0 - k1) = N0 by omega]
              exact hterm'
            obtain ⟨k2, hk21, hk22, hk23⟩ :=
              ih (N0 - k1) (by omega) (runSteps k1 r.step) _ rest hk13 hterm2
            refine ⟨1 + k1 + k2, by omega, by omega, ?_⟩
            have hsplit : runSteps (1 + k1 + k2) r
                = runSteps k2 (runSteps k1 (runSteps 1 r)) := by
              rw [runSteps_add (1 + k1) k2, runSteps_add 1 k1]
            rw [hsplit]
            exact hk23
      | publish pt =>
        rcases hnext : pt.next_task r.msg_bus with _ | ⟨pt', st⟩
        · exact ⟨1, le_refl 1, by omega,
            (step_publish_none r pt rest htop hnext).1⟩
        · obtain ⟨h1, -, -⟩ := step_publish_some r pt rest pt' st htop hnext
          obtain ⟨k1, hk11, hk12, hk13⟩ :=
            ih N0 (by omega) r.step (.send st) _ h1 hterm'
          have hterm2 : (runSteps (N0 - k1) (runSteps k1 r.step)).tasks = [] := by
            rw [← runSteps_add k1 (N0 - k1) r.step,
              show k1 + (N0 - k1) = N0 by omega]
            exact hterm'
          obtain ⟨k2, hk21, hk22, hk23⟩ :=
            ih (N0 - k1) (by omega) (runSteps k1 r.step) _ rest hk13 hterm2
          refine ⟨1 + k1 + k2, by omega, by omega, ?_⟩
          have hsplit : runSteps (1 + k1 + k2) r
              = runSteps k2 (runSteps k1 (runSteps 1 r)) := by
            rw [runSteps_add (1 + k1) k2, runSteps_add 1 k1]
          rw [hsplit]
          exact hk23

/-- Depth-first subtree lemma for a `SendTask` on top: in a terminating run
it is run to completion (reaching the stack below it), and the trace grows
by a block that ends with the handler's `Exit` event, emitted at the very
step the task is popped. -/
theorem subtree_pop_send :
    ∀ (N : Nat) (r : TaskRunner) (st : SendTask) (rest : List Task),
      r.tasks = .send st :: rest → (runSteps N r).tasks = [] →
      ∃ k d, 1 ≤ k ∧ k ≤ N ∧ (runSteps k r).tasks = rest ∧
        (runSteps k r).trace = r.trace ++ d ++ [TraceEvent.exit st.coro.id] := by
  intro N
  induction N using Nat.strong_induction_on with
  | _ N ih =>
    intro r st rest htop hterm
    cases N with
    | zero =>
      rw [show runSteps 0 r = r from rfl, htop] at hterm
      exact absurd hterm (by simp)
    | succ N0 =>
      have hterm' : (runSteps N0 r.step).tasks = [] := hterm
      obtain ⟨spat, ⟨cid, cent, crem⟩, smsg⟩ := st
      cases crem with
      | nil =>
        have hres : CoroState.resume ⟨cid, cent, []⟩
            = (.complete, ⟨cid, true, []⟩,
                (if cent then [] else [TraceEvent.enter cid]) ++ [TraceEvent.exit cid]) := rfl
        obtain ⟨h1, -, h3⟩ := step_send_complete r ⟨spat, ⟨cid, cent, []⟩, smsg⟩ rest
          ⟨cid, true, []⟩
          ((if cent then [] else [TraceEvent.enter cid]) ++ [TraceEvent.exit cid]) htop hres
        refine ⟨1, (if cent then [] else [TraceEvent.enter cid]), le_refl 1, by omega,
          h1, ?_⟩
        show r.step.trace = _
        rw [h3]
        simp [List.append_assoc]
      | cons cmd cs =>
        have hres : CoroState.resume ⟨cid, cent, cmd :: cs⟩
            = (.yielded cmd, ⟨cid, true, cs⟩,
                if cent then [] else [TraceEvent.enter cid]) := rfl
        obtain ⟨h1, -, h3⟩ := step_send_yield r ⟨spat, ⟨cid, cent, cmd :: cs⟩, smsg⟩ rest
          cmd ⟨cid, true, cs⟩ (if cent then [] else [TraceEvent.enter cid]) htop hres
        rcases pushedOf_cases cmd r.msg_bus with hp | ⟨t1, hp⟩
        · rw [hp, List.nil_append] at h1
          have h1' : r.step.tasks = .send ⟨spat, ⟨cid, true, cs⟩, smsg⟩ :: rest := h1
          obtain ⟨k, d, hk1, hk2, hk3, hk4⟩ :=
            ih N0 (by omega) r.step ⟨spat, ⟨cid, true, cs⟩, smsg⟩ rest h1' hterm'
          refine ⟨k + 1, (if cent then [] else [TraceEvent.enter cid]) ++ d,
            by omega, by omega, hk3, ?_⟩
          show (runSteps k r.step).trace = _
          rw [hk4, h3]
          simp [List.append_assoc]
        · rw [hp, List.singleton_append] at h1
          have h1' : r.step.tasks
              = t1 :: .send ⟨spat, ⟨cid, true, cs⟩, smsg⟩ :: rest := h1
          obtain ⟨k1, hk11, hk12, hk13⟩ :=
            subtree_pop_generic N0 r.step t1 _ h1' hterm'
          obtain ⟨d1, hd1⟩ := runSteps_trace_extends k1 r.step
          have hterm2 : (runSteps (N0 - k1) (runSteps k1 r.step)).tasks = [] := by
            rw [← runSteps_add k1 (N0 - k1) r.step,
              show k1 + (N0 - k1) = N0 by omega]
            exact hterm'
          obtain ⟨k2, d2, hk21, hk22, hk23, hk24⟩ :=
            ih (N0 - k1) (by omega) (runSteps k1 r.step)
              ⟨spat, ⟨cid, true, cs⟩, smsg⟩ rest hk13 hterm2
          refine ⟨1 + k1 + k2,
            ((if cent then [] else [TraceEvent.enter cid]) ++ d1) ++ d2,
            by omega, by omega, ?_, ?_⟩
          · have hsplit : runSteps (1 + k1 + k2) r
                = runSteps k2 (runSteps k1 (runSteps 1 r)) := by
              rw [runSteps_add (1 + k1) k2, runSteps_add 1 k1]
            rw [hsplit]
            exact hk23
          · have hsplit : runSteps (1 + k1 + k2) r
                = runSteps k2 (runSteps k1 (runSteps 1 r)) := by
              rw [runSteps_add (1 + k1) k2, runSteps_add 1 k1]
            rw [hsplit]
            show (runSteps k2 (runSteps k1 r.step)).trace = _
            rw [hk24, hd1, h3]
            simp [List.append_assoc]

/-- Element at the junction of an append. -/
theorem getElem?_append_cons {α : Type} (l t : List α) (e : α) :
    (l ++ e :: t)[l.length]? = some e := by
  induction l with
  | nil => simp
  | cons a l ih => simpa using ih

/-- Depth-first trace law: from a state whose top task runs an
already-entered handler A about to yield `Send` to a topic whose endpoint
is handler B, any terminating run produces a trace with positions
`Enter(A) < Enter(B) < Exit(B) < Exit(A)`. -/
theorem depth_first_trace_law (r : TaskRunner) (pA : String) (cA : CoroState)
    (mA : Msg) (rest : List Task) (tb : String) (m0 : Msg) (cs : List Command)
    (subB : Subscription) (N i : Nat)
    (htop : r.tasks = .send ⟨pA, cA, mA⟩ :: rest)
    (hent : cA.entered = true)
    (hrem : cA.remaining = .send tb m0 :: cs)
    (hep : epLookup r.msg_bus.endpoints tb = some subB)
    (_hnosend : ∀ c ∈ subB.actor_fn, ∀ topic msg, c ≠ .send topic msg)
    (htr : r.trace[i]? = some (.enter cA.id))
    (hterm : (runSteps N r).tasks = []) :
    ∃ j k l, i < j ∧ j < k ∧ k < l ∧
      (runSteps N r).trace[i]? = some (.enter cA.id) ∧
      (runSteps N r).trace[j]? = some (.enter subB.handler_id) ∧
      (runSteps N r).trace[k]? = some (.exit subB.handler_id) ∧
      (runSteps N r).trace[l]? = some (.exit cA.id) := by
  obtain ⟨aid, aent, arem⟩ := cA
  have hent' : aent = true := hent
  subst hent'
  have hrem' : arem = .send tb m0 :: cs := hrem
  subst hrem'
  have htr' : r.trace[i]? = some (.enter aid) := htr
  cases N with
  | zero =>
    rw [show runSteps 0 r = r from rfl, htop] at hterm
    exact absurd hterm (by simp)
  | succ N0 =>
    have hres : CoroState.resume ⟨aid, true, Command.send tb m0 :: cs⟩
        = (.yielded (.send tb m0), ⟨aid, true, cs⟩, []) := rfl
    obtain ⟨h1, -, h3⟩ := step_send_yield r ⟨pA, ⟨aid, true, .send tb m0 :: cs⟩, mA⟩
      rest (.send tb m0) ⟨aid, true, cs⟩ [] htop hres
    have hpush : pushedOf (.send tb m0) r.msg_bus
        = [.send ⟨tb, freshCoro subB, m0⟩] := by
      simp only [pushedOf]
      rw [hep]
    rw [hpush, List.singleton_append] at h1
    have h1' : r.step.tasks = .send ⟨tb, freshCoro subB, m0⟩ ::
        (.send ⟨pA, ⟨aid, true, cs⟩, mA⟩ :: rest) := h1
    have h3' : r.step.trace = r.trace := by rw [h3]; simp
    have hterm' : (runSteps N0 r.step).tasks = [] := hterm
    obtain ⟨k1, dB, hk11, hk12, hk13, hk14⟩ :=
      subtree_pop_send N0 r.step ⟨tb, freshCoro subB, m0⟩ _ h1' hterm'
    have hk13' : (runSteps k1 r.step).tasks
        = .send ⟨pA, ⟨aid, true, cs⟩, mA⟩ :: rest := hk13
    have hk14' : (runSteps k1 r.step).trace
        = r.step.trace ++ dB ++ [TraceEvent.exit subB.handler_id] := hk14
    have hBstep : ∃ tail0, r.step.step.trace
        = r.step.trace ++ (TraceEvent.enter subB.handler_id :: tail0) := by
      cases hact : subB.actor_fn with
      | nil =>
        have hresB : CoroState.resume ⟨subB.handler_id, false, []⟩
            = (.complete, ⟨subB.handler_id, true, []⟩,
                [TraceEvent.enter subB.handler_id] ++
                  [TraceEvent.exit subB.handler_id]) := rfl
        have h1b : r.step.tasks = .send ⟨tb, ⟨subB.handler_id, false, []⟩, m0⟩ ::
            (.send ⟨pA, ⟨aid, true, cs⟩, mA⟩ :: rest) := by
          rw [h1']
          rw [show freshCoro subB = ⟨subB.handler_id, false, subB.actor_fn⟩ from rfl]
          rw [hact]
        obtain ⟨-, -, ht⟩ := step_send_complete r.step _ _ _ _ h1b hresB
        exact ⟨[TraceEvent.exit subB.handler_id], by rw [ht]; rfl⟩
      | cons c0 cs0 =>
        have hresB : CoroState.resume ⟨subB.handler_id, false, c0 :: cs0⟩
            = (.yielded c0, ⟨subB.handler_id, true, cs0⟩,
                [TraceEvent.enter subB.handler_id]) := rfl
        have h1b : r.step.tasks = .send ⟨tb, ⟨subB.handler_id, false, c0 :: cs0⟩, m0⟩ ::
            (.send ⟨pA, ⟨aid, true, cs⟩, mA⟩ :: rest) := by
          rw [h1']
          rw [show freshCoro subB = ⟨subB.handler_id, false, subB.actor_fn⟩ from rfl]
          rw [hact]
        obtain ⟨-, -, ht⟩ := step_send_yield r.step _ _ c0 _ _ h1b hresB
        exact ⟨[], by rw [ht]⟩
    obtain ⟨tail0, htail0⟩ := hBstep
    obtain ⟨dZ1, hZ1⟩ := runSteps_trace_extends (k1 - 1) r.step.step
    have hk1split : runSteps k1 r.step = runSteps (k1 - 1) r.step.step := by
      conv_lhs => rw [show k1 = 1 + (k1 - 1) by omega]
      rw [runSteps_add 1 (k1 - 1)]
      rfl
    have hcomb : r.step.trace ++ (dB ++ [TraceEvent.exit subB.handler_id])
        = r.step.trace ++ (TraceEvent.enter subB.handler_id :: (tail0 ++ dZ1)) := by
      rw [← List.append_assoc, ← hk14', hk1split, hZ1, htail0]
      simp [List.append_assoc]
    have hBblock : dB ++ [TraceEvent.exit subB.handler_id]
        = TraceEvent.enter subB.handler_id :: (tail0 ++ dZ1) :=
      List.append_cancel_left hcomb
    obtain ⟨dB', hdB⟩ : ∃ dB', dB = TraceEvent.enter subB.handler_id :: dB' := by
      cases dB with
      | nil =>
        exfalso
        injection hBblock with hh ht
        exact TraceEvent.noConfusion hh
      | cons e dBt =>
        injection hBblock with hh ht
        exact ⟨dBt, by rw [hh]⟩
    have htr2 : (runSteps k1 r.step).trace = r.trace ++
        (TraceEvent.enter subB.handler_id :: dB') ++
          [TraceEvent.exit subB.handler_id] := by
      rw [hk14', h3', hdB]
    have hterm2 : (runSteps (N0 - k1) (runSteps k1 r.step)).tasks = [] := by
      rw [← runSteps_add k1 (N0 - k1) r.step, show k1 + (N0 - k1) = N0 by omega]
      exact hterm'
    obtain ⟨k2, dA, hk21, hk22, hk23, hk24⟩ :=
      subtree_pop_send (N0 - k1) (runSteps k1 r.step)
        ⟨pA, ⟨aid, true, cs⟩, mA⟩ rest hk13' hterm2
    have hk24' : (runSteps k2 (runSteps k1 r.step)).trace
        = (runSteps k1 r.step).trace ++ dA ++ [TraceEvent.exit aid] := hk24
    obtain ⟨dZ, hdZ⟩ :=
      runSteps_trace_extends ((N0 - k1) - k2) (runSteps k2 (runSteps k1 r.step))
    have hfinal : runSteps (N0 + 1) r
        = runSteps ((N0 - k1) - k2) (runSteps k2 (runSteps k1 r.step)) := by
      show runSteps N0 r.step = _
      conv_lhs => rw [show N0 = k1 + (k2 + ((N0 - k1) - k2)) by omega]
      rw [runSteps_add k1 (k2 + ((N0 - k1) - k2)) r.step,
        runSteps_add k2 ((N0 - k1) - k2) (runSteps k1 r.step)]
    have hFT : (runSteps (N0 + 1) r).trace = r.trace ++
        (TraceEvent.enter subB.handler_id :: dB') ++
        [TraceEvent.exit subB.handler_id] ++ dA ++ [TraceEvent.exit aid] ++ dZ := by
      rw [hfinal, hdZ, hk24', htr2]
    have hFT1 : (runSteps (N0 + 1) r).trace = r.trace ++
        TraceEvent.enter subB.handler_id ::
          (dB' ++ TraceEvent.exit subB.handler_id :: (dA ++ TraceEvent.exit aid :: dZ)) := by
      rw [hFT]
      simp [List.append_assoc]
    have hFT2 : (runSteps (N0 + 1) r).trace =
        (r.trace ++ TraceEvent.enter subB.handler_id :: dB') ++
          TraceEvent.exit subB.handler_id :: (dA ++ TraceEvent.exit aid :: dZ) := by
      rw [hFT]
      simp [List.append_assoc]
    have hFT3 : (runSteps (N0 + 1) r).trace =
        (r.trace ++ TraceEvent.enter subB.handler_id ::
          (dB' ++ TraceEvent.exit subB.handler_id :: dA)) ++
          TraceEvent.exit aid :: dZ := by
      rw [hFT]
      simp [List.append_assoc]
    have hi : i < r.trace.length := by
      have := List.getElem?_eq_some_iff.mp htr'
      exact this.choose
    refine ⟨r.trace.length,
      (r.trace ++ TraceEvent.enter subB.handler_id :: dB').length,
      (r.trace ++ TraceEvent.enter subB.handler_id ::
        (dB' ++ TraceEvent.exit subB.handler_id :: dA)).length,
      hi, ?_, ?_, ?_, ?_, ?_, ?_⟩
    · simp only [List.length_append, List.length_cons]
      omega
    · simp only [List.length_append, List.length_cons]
      omega
    · rw [hFT1, List.getElem?_append_left hi]
      exact htr'
    · rw [hFT1]
      exact getElem?_append_cons _ _ _
    · rw [hFT2]
      exact getElem?_append_cons _ _ _
    · rw [hFT3]
      exact getElem?_append_cons _ _ _

/-- Publish stepwise law: when the top `PublishTask` produces its `idx`-th
`SendTask`, that task is pushed above the advanced cursor, and in a
terminating run it and everything it spawns are run to completion — the
stack returns to the advanced `PublishTask` on top — before the cursor can
produce the `(idx+1)`-th `SendTask`. -/
theorem publish_stepwise_law (r : TaskRunner) (pt : PublishTask)
    (rest : List Task) (pt' : PublishTask) (st : SendTask) (N : Nat)
    (htop : r.tasks = .publish pt :: rest)
    (hnext : pt.next_task r.msg_bus = some (pt', st))
    (hterm : (runSteps N r).tasks = []) :
    r.step.tasks = .send st :: .publish pt' :: rest ∧
    pt'.idx = pt.idx + 1 ∧
    ∃ k, 1 ≤ k ∧ k ≤ N - 1 ∧ (runSteps k r.step).tasks = .publish pt' :: rest := by
  obtain ⟨h1, -, -⟩ := step_publish_some r pt rest pt' st htop hnext
  have hidx : pt'.idx = pt.idx + 1 := by
    unfold PublishTask.next_task at hnext
    cases hg : List.get? (matchingSubs r.msg_bus pt.pat) pt.idx with
    | some sub =>
      rw [hg] at hnext
      injection hnext with h
      injection h with ha hb
      rw [← ha]
    | none =>
      rw [hg] at hnext
      exact Option.noConfusion hnext
  cases N with
  | zero =>
    rw [show runSteps 0 r = r from rfl, htop] at hterm
    exact absurd hterm (by simp)
  | succ N0 =>
    have hterm' : (runSteps N0 r.step).tasks = [] := hterm
    obtain ⟨k, hk1, hk2, hk3⟩ :=
      subtree_pop_generic N0 r.step (.send st) (.publish pt' :: rest) h1 hterm'
    exact ⟨h1, hidx, k, hk1, by omega, hk3⟩

/-- C3, confirmed. Delivery is depth-first.  First conjunct: from any state
whose top task runs an already-entered handler A about to yield `Send` to a
topic whose endpoint handler B yields no further sends, every terminating
run produces a trace with positions `Enter(A) < Enter(B) < Exit(B) <
Exit(A)`.  Second conjunct: under a `Publish`, after the `idx`-th matching
subscriber's `SendTask` is pushed, that task and every task it spawns are
run to completion — the stack returns to the advanced `PublishTask` — before
the `PublishTask` produces the `(idx+1)`-th `SendTask`. -/
theorem publish_send_depth_first :
    (∀ (r : TaskRunner) (pA : String) (cA : CoroState) (mA : Msg)
      (rest : List Task) (tb : String) (m0 : Msg) (cs : List Command)
      (subB : Subscription) (N i : Nat),
      r.tasks = .send ⟨pA, cA, mA⟩ :: rest →
      cA.entered = true →
      cA.remaining = .send tb m0 :: cs →
      epLookup r.msg_bus.endpoints tb = some subB →
      (∀ c ∈ subB.actor_fn, ∀ topic msg, c ≠ .send topic msg) →
      r.trace[i]? = some (.enter cA.id) →
      (runSteps N r).tasks = [] →
      ∃ j k l, i < j ∧ j < k ∧ k < l ∧
        (runSteps N r).trace[i]? = some (.enter cA.id) ∧
        (runSteps N r).trace[j]? = some (.enter subB.handler_id) ∧
        (runSteps N r).trace[k]? = some (.exit subB.handler_id) ∧
        (runSteps N r).trace[l]? = some (.exit cA.id)) ∧
    (∀ (r : TaskRunner) (pt : PublishTask) (rest : List Task)
      (pt' : PublishTask) (st : SendTask) (N : Nat),
      r.tasks = .publish pt :: rest →
      pt.next_task r.msg_bus = some (pt', st) →
      (runSteps N r).tasks = [] →
      r.step.tasks = .send st :: .publish pt' :: rest ∧
      pt'.idx = pt.idx + 1 ∧
      ∃ k, 1 ≤ k ∧ k ≤ N - 1 ∧ (runSteps k r.step).tasks = .publish pt' :: rest) := by
  constructor
  · intro r pA cA mA rest tb m0 cs subB N i htop hent hrem hep hnosend htr hterm
    exact depth_first_trace_law r pA cA mA rest tb m0 cs subB N i
      htop hent hrem hep hnosend htr hterm
  · intro r pt rest pt' st N htop hnext hterm
    exact publish_stepwise_law r pt rest pt' st N htop hnext hterm

/-- Concrete scenario for the depth-first witness: handler A (entered, about
to send to `"topic_b"`) on top, endpoint B with no actions registered for
`"topic_b"`, trace so far `[Enter A]`. -/
def depthFirstWitnessRunner : TaskRunner :=
  ⟨[.send ⟨"topic_a", ⟨"A", true, [.send "topic_b" 0]⟩, 0⟩],
    MessageBus.new.register (.mk [] "B" "topic_b" 0),
    [.enter "A"]⟩

/-- Witness for `publish_send_depth_first` on the concrete A → B chain,
which terminates in three steps. -/
theorem publish_send_depth_first_witness :
    ((runSteps 3 depthFirstWitnessRunner).tasks = []) ∧
    (∃ j k l, 0 < j ∧ j < k ∧ k < l ∧
      (runSteps 3 depthFirstWitnessRunner).trace[0]? = some (.enter "A") ∧
      (runSteps 3 depthFirstWitnessRunner).trace[j]? = some (.enter "B") ∧
      (runSteps 3 depthFirstWitnessRunner).trace[k]? = some (.exit "B") ∧
      (runSteps 3 depthFirstWitnessRunner).trace[l]? = some (.exit "A")) :=
  ⟨rfl,
    publish_send_depth_first.1 depthFirstWitnessRunner "topic_a"
      ⟨"A", true, [.send "topic_b" 0]⟩ 0 [] "topic_b" 0 []
      (.mk [] "B" "topic_b" 0) 3 0 rfl rfl rfl rfl
      (fun c hc => absurd hc (List.not_mem_nil c)) rfl rfl⟩

end PoseiBus
